import Mathlib

/-!
Shallow embedding of the sub-step canvas model of `ai_project_planner`.

The definitions below are translated from the two source files:
* `src/components/TaskDetailModal.tsx` (the canvas with connectors), and
* `src/unnamed/part_000` (an alternative `TaskDetailModal` variant with
  `handleAutoLayout` and a `SubStepCard` component).

TypeScript optional fields become `Option`; JavaScript arrays become `List`;
pixel coordinates (JS numbers, integral in every code path modelled here)
become `Int`.
-/

namespace AiProjectPlanner

/-- 2D position `{ x, y }` of a card (top-left anchor). -/
structure Pos where
  x : Int
  y : Int
  deriving DecidableEq, Repr

/-- An action item owned by a sub-step (`ActionItem` in `../types`),
restricted to the fields the canvas logic touches. -/
structure ActionItem where
  id : String
  text : String
  completed : Bool
  deriving DecidableEq, Repr

/-- A sub-step node (`SubStep` in `../types`), restricted to the fields the
canvas logic touches.  Optional TS fields are `Option` with default `none`. -/
structure SubStep where
  id : String
  text : String
  notes : Option String := none
  position : Option Pos := none
  nextSubStepIds : Option (List String) := none
  actionItems : Option (List ActionItem) := none
  deriving DecidableEq, Repr

/-- `subStepCanvasSize` value `{ width, height }`. -/
structure CanvasSize where
  width : Int
  height : Int
  deriving DecidableEq, Repr

/-- A connector record as built by `calculateConnectors`
(`ConnectorInfo` in `TaskDetailModal.tsx`); `from`/`to` are named
`fromPos`/`toPos` because `from` is a Lean keyword. -/
structure ConnectorInfo where
  id : String
  fromPos : Pos
  toPos : Pos
  sourceId : String
  targetId : String
  deriving DecidableEq, Repr

/-- `subStep.position?.x || 0` — a missing position contributes `0`
(`0 || 0` is `0` in JS, so `Option.getD` is an exact model on `Int`). -/
def posXor0 (p : Option Pos) : Int :=
  (p.map Pos.x).getD 0

/-- `subStep.position?.y || 0`. -/
def posYor0 (p : Option Pos) : Int :=
  (p.map Pos.y).getD 0

/-! ### Connector geometry (`calculateConnectors`, TaskDetailModal.tsx:99-142)

The DOM bookkeeping (`flowContainerRef`, `subStepCardRefs`) is presentation
plumbing; the embedded function is the pure loop that builds the
`ConnectorInfo` list from the sub-step list. -/

/-- Connectors emitted for one source sub-step: for each `targetId` in its
`nextSubStepIds`, look the target up in the full list and silently skip it
when absent (`if (!targetSubStep) return;`). -/
def connectorsOfSource (subSteps : List SubStep) (sourceSubStep : SubStep) :
    List ConnectorInfo :=
  match sourceSubStep.nextSubStepIds with
  | none => []
  | some nextIds =>
    if nextIds.length > 0 then
      let sourceX := posXor0 sourceSubStep.position
      let sourceY := posYor0 sourceSubStep.position
      let sourcePos : Pos := ⟨sourceX + 200, sourceY + 120 / 2⟩
      nextIds.filterMap (fun targetId =>
        match subSteps.find? (fun ss => ss.id = targetId) with
        | none => none
        | some targetSubStep =>
          let targetX := posXor0 targetSubStep.position
          let targetY := posYor0 targetSubStep.position
          some { id := "conn-" ++ sourceSubStep.id ++ "-" ++ targetId,
                 fromPos := sourcePos,
                 toPos := ⟨targetX, targetY + 120 / 2⟩,
                 sourceId := sourceSubStep.id,
                 targetId := targetId })
    else []

/-- `calculateConnectors` (TaskDetailModal.tsx:99-142): the list of
connectors derived from the current sub-step list. -/
def calculateConnectors (subSteps : List SubStep) : List ConnectorInfo :=
  subSteps.flatMap (connectorsOfSource subSteps)

/-- The CSS `left`/`top` a `SubStepCard` is rendered at
(part_000:631-634 and TaskDetailModal.tsx:738-739):
`left: subStep.position?.x || 0, top: subStep.position?.y || 0`. -/
def subStepCardLeftTop (subStep : SubStep) : Pos :=
  ⟨posXor0 subStep.position, posYor0 subStep.position⟩

/-! ### Auto layout

Two copies exist in the source, identical except for the margin constant:
`handleAutoLayoutSubSteps` (TaskDetailModal.tsx:144-169, `PADDING = 20`) and
`handleAutoLayout` (part_000:60-78, `MARGIN = 50`).  Both use
`HORIZONTAL_SPACING = 250`, `VERTICAL_SPACING = 150` and three columns. -/

/-- The grid position map shared by both auto-layout handlers, carrying the
running index of `subSteps.map((subStep, index) => ...)` explicitly:
`x = margin + (index % 3) * 250`, `y = margin + floor(index / 3) * 150`. -/
def autoLayoutFrom (margin : Int) (index : Nat) : List SubStep → List SubStep
  | [] => []
  | subStep :: rest =>
    { subStep with
        position := some ⟨margin + ((index % 3 : Nat) : Int) * 250,
                          margin + ((index / 3 : Nat) : Int) * 150⟩ } ::
      autoLayoutFrom margin (index + 1) rest

/-- `handleAutoLayout` (part_000:60-78), `MARGIN = 50`. -/
def handleAutoLayout (subSteps : List SubStep) : List SubStep :=
  autoLayoutFrom 50 0 subSteps

/-- `handleAutoLayoutSubSteps` (TaskDetailModal.tsx:144-169), `PADDING = 20`. -/
def handleAutoLayoutSubSteps (subSteps : List SubStep) : List SubStep :=
  autoLayoutFrom 20 0 subSteps

/-! ### Drag / move (`handleSubStepDrop`, TaskDetailModal.tsx:194-218) -/

/-- The clamp applied to a dropped card position:
`newX = Math.max(0, Math.min(newX, canvasSize.width - CARD_WIDTH))` and
likewise for `y` with `CARD_HEIGHT`, with `CARD_WIDTH = 200`,
`CARD_HEIGHT = 120`. -/
def clampToCanvas (proposed : Pos) (canvasSize : CanvasSize) : Pos :=
  ⟨max 0 (min proposed.x (canvasSize.width - 200)),
   max 0 (min proposed.y (canvasSize.height - 120))⟩

/-- `handleSubStepDrop` (TaskDetailModal.tsx:194-218), with the drop point
already converted to canvas coordinates (`proposed`): the dragged sub-step's
position is replaced by the clamped point, all other sub-steps unchanged. -/
def handleSubStepDrop (subSteps : List SubStep) (draggedId : String)
    (proposed : Pos) (canvasSize : CanvasSize) : List SubStep :=
  subSteps.map (fun ss =>
    if ss.id = draggedId then { ss with position := some (clampToCanvas proposed canvasSize) }
    else ss)

/-! ### Graph mutation -/

/-- Left-to-right insertion into a JS `Set`: an element already seen is
skipped, a new one is appended to the set's iteration order. -/
def jsSetDedupGo (seen : List String) : List String → List String
  | [] => []
  | x :: xs => if x ∈ seen then jsSetDedupGo seen xs else x :: jsSetDedupGo (seen ++ [x]) xs

/-- First-occurrence deduplication, the order-preserving behaviour of
`Array.from(new Set(list))` on an array of strings. -/
def jsSetDedup (l : List String) : List String :=
  jsSetDedupGo [] l

/-- `handleEndConnection` (TaskDetailModal.tsx:230-246), given that a connect
gesture is active (`connectingState = { fromId, .. }`) and editing is
allowed; the guard `connectingState.fromId === targetSubStepId` makes the
self-connection a no-op, otherwise `targetSubStepId` is added to the source's
`nextSubStepIds` via `Array.from(new Set([...(ss.nextSubStepIds || []), targetSubStepId]))`. -/
def handleEndConnection (subSteps : List SubStep) (fromId targetSubStepId : String) :
    List SubStep :=
  if fromId = targetSubStepId then subSteps
  else
    subSteps.map (fun ss =>
      if ss.id = fromId then
        { ss with nextSubStepIds := some (jsSetDedup ((ss.nextSubStepIds.getD []) ++ [targetSubStepId])) }
      else ss)

/-- `handleDeleteConnection` (TaskDetailModal.tsx:248-258): removes
`targetSubStepId` from the source's `nextSubStepIds`. -/
def handleDeleteConnection (subSteps : List SubStep)
    (sourceSubStepId targetSubStepId : String) : List SubStep :=
  subSteps.map (fun ss =>
    if ss.id = sourceSubStepId then
      { ss with nextSubStepIds := some ((ss.nextSubStepIds.getD []).filter (fun i => i ≠ targetSubStepId)) }
    else ss)

/-- `handleRemoveSubStep` (TaskDetailModal.tsx:348-361), past the confirm
dialog: drop the node, then rewrite every remaining node's
`nextSubStepIds` with `ss.nextSubStepIds?.filter(id => id !== subStepId)`
(an absent `nextSubStepIds` stays absent). -/
def handleRemoveSubStep (subSteps : List SubStep) (subStepId : String) :
    List SubStep :=
  let updatedSubSteps := subSteps.filter (fun ss => ss.id ≠ subStepId)
  updatedSubSteps.map (fun ss =>
    { ss with nextSubStepIds := ss.nextSubStepIds.map (List.filter (fun i => i ≠ subStepId)) })

/-- `handleAddSubStep` (TaskDetailModal.tsx:333-346): appends a fresh
sub-step at `x = 50 + subSteps.length * 220, y = 50`; the id comes from the
caller-supplied `generateUniqueId('substep')`. -/
def handleAddSubStep (subSteps : List SubStep) (newId : String) : List SubStep :=
  subSteps ++ [{ id := newId,
                 text := "新しいサブステップ",
                 notes := some "",
                 position := some ⟨50 + (subSteps.length : Int) * 220, 50⟩,
                 actionItems := some [] }]

/-! ### Merging AI proposals (`handleConfirmProposals`, TaskDetailModal.tsx:300-331)

`generateUniqueId` is caller-supplied; it is modelled as two opaque-to-the-
logic id streams indexed by call position (`genSubStepId index` for the
`index`-th new sub-step, `genActionId j` for the `j`-th entry of
`newActionItems`). -/

/-- A `{ title, description }` proposal for a new sub-step. -/
structure Proposal where
  title : String
  description : String
  deriving DecidableEq, Repr

/-- A `{ targetSubStepId, title }` proposal for a new action item. -/
structure NewActionItemSpec where
  targetSubStepId : String
  title : String
  deriving DecidableEq, Repr

/-- The `newSubStep` record built for the `index`-th proposal when the live
`updatedSubSteps` array currently holds `acc`:
`{ id: generateUniqueId('substep'), text: proposal.title, notes: proposal.description,
position: { x: 50 + (updatedSubSteps.length + index) * 220, y: 50 }, actionItems: [] }`. -/
def mkProposalSubStep (genSubStepId : Nat → String) (acc : List SubStep)
    (index : Nat) (proposal : Proposal) : SubStep :=
  { id := genSubStepId index,
    text := proposal.title,
    notes := some proposal.description,
    position := some ⟨50 + ((acc.length : Int) + (index : Int)) * 220, 50⟩,
    actionItems := some [] }

/-- The `additions.newSubSteps.forEach((proposal, index) => ...)` loop:
each new sub-step is pushed onto the live `updatedSubSteps` array, and its
`x` reads `updatedSubSteps.length` *after* the previous pushes, so the
length seen at iteration `index` has grown by one per earlier iteration. -/
def pushNewSubSteps (genSubStepId : Nat → String) (acc : List SubStep) :
    Nat → List Proposal → List SubStep
  | _, [] => acc
  | index, proposal :: rest =>
    pushNewSubSteps genSubStepId
      (acc ++ [mkProposalSubStep genSubStepId acc index proposal]) (index + 1) rest

/-- In-place update of the first list entry satisfying `p` — the effect of
`updatedSubSteps.findIndex(...)` followed by assignment to
`updatedSubSteps[targetIndex]`. -/
def modifyFirst (p : SubStep → Bool) (f : SubStep → SubStep) :
    List SubStep → List SubStep
  | [] => []
  | ss :: rest => if p ss then f ss :: rest else ss :: modifyFirst p f rest

/-- The `additions.newActionItems.forEach(item => ...)` loop: look the target
up by id (`findIndex`); when found (`targetIndex !== -1`) append a fresh
action item to its `actionItems`, otherwise do nothing. -/
def addNewActionItems (genActionId : Nat → String) (acc : List SubStep) :
    Nat → List NewActionItemSpec → List SubStep
  | _, [] => acc
  | j, item :: rest =>
    let acc' := modifyFirst (fun ss => ss.id = item.targetSubStepId)
      (fun ss =>
        { ss with actionItems := some ((ss.actionItems.getD []) ++ [⟨genActionId j, item.title, false⟩]) })
      acc
    addNewActionItems genActionId acc' (j + 1) rest

/-- `handleConfirmProposals` (TaskDetailModal.tsx:300-331): append the new
sub-steps, then attach the new action items onto resolved targets. -/
def handleConfirmProposals (subSteps : List SubStep)
    (newSubSteps : List Proposal) (newActionItems : List NewActionItemSpec)
    (genSubStepId genActionId : Nat → String) : List SubStep :=
  addNewActionItems genActionId (pushNewSubSteps genSubStepId subSteps 0 newSubSteps) 0 newActionItems

/-! ### Referential integrity -/

/-- The spec invariant: every id in every node's `nextSubStepIds` references
a node present in the list. -/
def refIntegrity (subSteps : List SubStep) : Prop :=
  ∀ ss ∈ subSteps, ∀ t ∈ ss.nextSubStepIds.getD [], ∃ tt ∈ subSteps, tt.id = t

instance (subSteps : List SubStep) : Decidable (refIntegrity subSteps) := by
  unfold refIntegrity
  exact inferInstance

/-! ### Concrete nodes used in witnesses and counterexamples -/

/-- Node A of the spec's connector example: at `(0,0)` with `A.nextIds = [B.id]`. -/
def connDemoA : SubStep :=
  { id := "a", text := "A", position := some ⟨0, 0⟩, nextSubStepIds := some ["b"] }

/-- Node B of the spec's connector example: at `(300,0)`. -/
def connDemoB : SubStep :=
  { id := "b", text := "B", position := some ⟨300, 0⟩ }

/-- A single node with id `"a"` and no outgoing edges. -/
def nodeOnlyA : SubStep := { id := "a", text := "A" }

/-- Four arbitrary nodes, for exercising the auto-layout grid. -/
def demoFour : List SubStep :=
  [{ id := "s1", text := "S1" }, { id := "s2", text := "S2" },
   { id := "s3", text := "S3" }, { id := "s4", text := "S4" }]

/-- The delete-cascade example `A→B`, `B→C`. -/
def cascadeA : SubStep := { id := "a", text := "A", nextSubStepIds := some ["b"] }

/-- See `cascadeA`. -/
def cascadeB : SubStep := { id := "b", text := "B", nextSubStepIds := some ["c"] }

/-- See `cascadeA`. -/
def cascadeC : SubStep := { id := "c", text := "C" }

/-- A source node with no `position`, pointing at `"t"`. -/
def noPosDemoS : SubStep := { id := "s", text := "S", nextSubStepIds := some ["t"] }

/-- Target of `noPosDemoS`, at `(40, 50)`. -/
def noPosDemoT : SubStep := { id := "t", text := "T", position := some ⟨40, 50⟩ }

/-! ### Lemmas about `jsSetDedup` -/

theorem mem_jsSetDedupGo {a : String} :
    ∀ (l seen : List String), a ∈ jsSetDedupGo seen l ↔ a ∈ l ∧ a ∉ seen := by
  intro l
  induction l with
  | nil => simp [jsSetDedupGo]
  | cons x xs ih =>
    intro seen
    by_cases hx : x ∈ seen
    · rw [jsSetDedupGo, if_pos hx, ih]
      constructor
      · rintro ⟨h1, h2⟩
        exact ⟨List.mem_cons_of_mem _ h1, h2⟩
      · rintro ⟨h1, h2⟩
        rcases List.mem_cons.mp h1 with rfl | h1
        · exact absurd hx h2
        · exact ⟨h1, h2⟩
    · rw [jsSetDedupGo, if_neg hx]
      simp only [List.mem_cons, ih, List.mem_append, List.mem_singleton]
      constructor
      · rintro (rfl | ⟨h1, h2⟩)
        · exact ⟨Or.inl rfl, hx⟩
        · exact ⟨Or.inr h1, fun hs => h2 (Or.inl hs)⟩
      · rintro ⟨rfl | h1, h2⟩
        · exact Or.inl rfl
        · by_cases hax : a = x
          · exact Or.inl hax
          · exact Or.inr ⟨h1, by simp [h2, hax]⟩

theorem mem_jsSetDedup {a : String} {l : List String} : a ∈ jsSetDedup l ↔ a ∈ l := by
  rw [jsSetDedup, mem_jsSetDedupGo]
  simp

theorem nodup_jsSetDedupGo : ∀ (l seen : List String), (jsSetDedupGo seen l).Nodup := by
  intro l
  induction l with
  | nil => intro seen; simp [jsSetDedupGo]
  | cons x xs ih =>
    intro seen
    by_cases hx : x ∈ seen
    · rw [jsSetDedupGo, if_pos hx]; exact ih seen
    · rw [jsSetDedupGo, if_neg hx]
      refine List.nodup_cons.mpr ⟨?_, ih (seen ++ [x])⟩
      intro hmem
      rw [mem_jsSetDedupGo] at hmem
      exact hmem.2 (by simp)

theorem nodup_jsSetDedup (l : List String) : (jsSetDedup l).Nodup :=
  nodup_jsSetDedupGo l []

theorem jsSetDedupGo_eq_self :
    ∀ (l seen : List String), l.Nodup → (∀ a ∈ l, a ∉ seen) → jsSetDedupGo seen l = l := by
  intro l
  induction l with
  | nil => intro seen _ _; rfl
  | cons x xs ih =>
    intro seen hnd hdisj
    rw [List.nodup_cons] at hnd
    rw [jsSetDedupGo, if_neg (hdisj x (List.mem_cons_self x xs))]
    rw [ih (seen ++ [x]) hnd.2]
    intro a ha
    simp only [List.mem_append, List.mem_singleton]
    rintro (h | rfl)
    · exact hdisj a (List.mem_cons_of_mem _ ha) h
    · exact hnd.1 ha

theorem jsSetDedup_eq_self {l : List String} (h : l.Nodup) : jsSetDedup l = l :=
  jsSetDedupGo_eq_self l [] h (by simp)

theorem jsSetDedupGo_append_mem {t : String} :
    ∀ (l seen : List String), t ∈ seen ∨ t ∈ l →
      jsSetDedupGo seen (l ++ [t]) = jsSetDedupGo seen l := by
  intro l
  induction l with
  | nil =>
    intro seen ht
    have hts : t ∈ seen := by
      rcases ht with h | h
      · exact h
      · cases h
    simp [jsSetDedupGo, hts]
  | cons x xs ih =>
    intro seen ht
    by_cases hx : x ∈ seen
    · rw [List.cons_append, jsSetDedupGo, if_pos hx, jsSetDedupGo, if_pos hx]
      apply ih
      rcases ht with h | h
      · exact Or.inl h
      · rcases List.mem_cons.mp h with rfl | h
        · exact Or.inl hx
        · exact Or.inr h
    · rw [List.cons_append, jsSetDedupGo, if_neg hx, jsSetDedupGo, if_neg hx]
      congr 1
      apply ih
      rcases ht with h | h
      · exact Or.inl (by simp [h])
      · rcases List.mem_cons.mp h with rfl | h
        · exact Or.inl (by simp)
        · exact Or.inr h

theorem jsSetDedup_append_mem {t : String} {l : List String} (ht : t ∈ l) :
    jsSetDedup (l ++ [t]) = jsSetDedup l :=
  jsSetDedupGo_append_mem l [] (Or.inr ht)

theorem jsSetDedup_idem (l : List String) : jsSetDedup (jsSetDedup l) = jsSetDedup l :=
  jsSetDedup_eq_self (nodup_jsSetDedup l)

/-! ### Lemmas about `autoLayoutFrom` -/

theorem autoLayoutFrom_idem (margin : Int) (index : Nat) (l : List SubStep) :
    autoLayoutFrom margin index (autoLayoutFrom margin index l) = autoLayoutFrom margin index l := by
  induction l generalizing index with
  | nil => rfl
  | cons ss rest ih => simp [autoLayoutFrom, ih]

theorem length_autoLayoutFrom (margin : Int) (index : Nat) (l : List SubStep) :
    (autoLayoutFrom margin index l).length = l.length := by
  induction l generalizing index with
  | nil => rfl
  | cons ss rest ih => simp [autoLayoutFrom, ih]

theorem autoLayoutFrom_getElem? (margin : Int) (index : Nat) (l : List SubStep) (i : Nat) :
    (autoLayoutFrom margin index l)[i]? =
      (l[i]?).map (fun ss =>
        { ss with position := some ⟨margin + (((index + i) % 3 : Nat) : Int) * 250, margin + (((index + i) / 3 : Nat) : Int) * 150⟩ }) := by
  induction l generalizing index i with
  | nil => simp [autoLayoutFrom]
  | cons ss rest ih =>
    cases i with
    | zero => simp [autoLayoutFrom]
    | succ i =>
      have h : index + 1 + i = index + (i + 1) := by omega
      simp only [autoLayoutFrom, List.getElem?_cons_succ]
      rw [ih (index + 1) i, h]

/-- Claim C9: auto-layout is idempotent — applying either auto-layout handler
twice to the same sequence yields the same result as applying it once,
because each node's assigned position depends only on its index and fixed
constants. -/
theorem autoLayout_idempotent (S : List SubStep) :
    handleAutoLayout (handleAutoLayout S) = handleAutoLayout S ∧
    handleAutoLayoutSubSteps (handleAutoLayoutSubSteps S) = handleAutoLayoutSubSteps S :=
  ⟨autoLayoutFrom_idem 50 0 S, autoLayoutFrom_idem 20 0 S⟩

/-- Claim C3, counterexample: with `margin = 50`, `vSpacing = 150`, the 4th
node (index 3) of `handleAutoLayout` lands at `(50, 200)` — row
`floor(3/3) = 1`, so `y = 50 + 150 = 200` — not at `(50, 150)` as the claim
states. -/
theorem autoLayout_fourth_node_counterexample :
    ((handleAutoLayout demoFour).map SubStep.position)[3]? = some (some ⟨50, 200⟩) ∧
    (some (some (⟨50, 150⟩ : Pos)) : Option (Option Pos)) ≠ some (some ⟨50, 200⟩) := by
  decide

/-- Claim C3, amended: `handleAutoLayout` preserves length and input order,
assigning the node at input index `i` the position
`x = 50 + (i mod 3) * 250`, `y = 50 + floor(i / 3) * 150` and leaving all
its other fields unchanged; the 1st node (index 0) lands at `(50, 50)` and
the 4th node (index 3) lands at `(50, 200)`. -/
theorem autoLayout_grid_amended :
    (∀ S : List SubStep, (handleAutoLayout S).length = S.length) ∧
    (∀ (S : List SubStep) (i : Nat),
      (handleAutoLayout S)[i]? = (S[i]?).map (fun ss =>
        { ss with position := some ⟨50 + ((i % 3 : Nat) : Int) * 250, 50 + ((i / 3 : Nat) : Int) * 150⟩ })) ∧
    ((handleAutoLayout demoFour).map SubStep.position =
      [some ⟨50, 50⟩, some ⟨300, 50⟩, some ⟨550, 50⟩, some ⟨50, 200⟩]) := by
  refine ⟨fun S => length_autoLayoutFrom 50 0 S, fun S i => ?_, by decide⟩
  have h := autoLayoutFrom_getElem? 50 0 S i
  simpa [handleAutoLayout] using h

/-- Claim C5: the drop handler clamps the proposed position componentwise
into `[0, width - 200] × [0, height - 120]`, totally (never rejecting):
coordinates already in range are kept, the result never leaves the box, a
canvas smaller than the card clamps the coordinate to 0 (lower bound wins),
and `(9999, 9999)` inside a `(1200, 800)` canvas yields `(1000, 680)`. -/
theorem moveTo_clamp_spec :
    (∀ (p : Pos) (cs : CanvasSize), 0 ≤ (clampToCanvas p cs).x ∧ 0 ≤ (clampToCanvas p cs).y) ∧
    (∀ (p : Pos) (cs : CanvasSize),
      (clampToCanvas p cs).x ≤ max 0 (cs.width - 200) ∧ (clampToCanvas p cs).y ≤ max 0 (cs.height - 120)) ∧
    (∀ (p : Pos) (cs : CanvasSize), 0 ≤ p.x → p.x ≤ cs.width - 200 → (clampToCanvas p cs).x = p.x) ∧
    (∀ (p : Pos) (cs : CanvasSize), 0 ≤ p.y → p.y ≤ cs.height - 120 → (clampToCanvas p cs).y = p.y) ∧
    (∀ (p : Pos) (cs : CanvasSize), cs.width - 200 < 0 → (clampToCanvas p cs).x = 0) ∧
    (∀ (p : Pos) (cs : CanvasSize), cs.height - 120 < 0 → (clampToCanvas p cs).y = 0) ∧
    (clampToCanvas ⟨9999, 9999⟩ ⟨1200, 800⟩ = ⟨1000, 680⟩) ∧
    (∀ nodes : List SubStep, handleSubStepDrop nodes "b" ⟨9999, 9999⟩ ⟨1200, 800⟩ =
      nodes.map (fun ss => if ss.id = "b" then { ss with position := some ⟨1000, 680⟩ } else ss)) := by
  refine ⟨?_, ?_, ?_, ?_, ?_, ?_, by decide, ?_⟩
  · intro p cs; constructor <;> simp [clampToCanvas]
  · intro p cs
    constructor <;> · simp only [clampToCanvas]; omega
  · intro p cs h1 h2; simp only [clampToCanvas]; omega
  · intro p cs h1 h2; simp only [clampToCanvas]; omega
  · intro p cs h; simp only [clampToCanvas]; omega
  · intro p cs h; simp only [clampToCanvas]; omega
  · intro nodes
    simp only [handleSubStepDrop]
    have : clampToCanvas ⟨9999, 9999⟩ ⟨1200, 800⟩ = ⟨1000, 680⟩ := by decide
    rw [this]

/-- Closed witness for `moveTo_clamp_spec`: its hypotheses are satisfiable at
concrete inputs. -/
theorem moveTo_clamp_spec_witness :
    (clampToCanvas ⟨30, 40⟩ ⟨1200, 800⟩).x = 30 ∧ (clampToCanvas ⟨5, 5⟩ ⟨100, 90⟩).x = 0 := by
  obtain ⟨-, -, h3, -, h5, -, -, -⟩ := moveTo_clamp_spec
  exact ⟨h3 ⟨30, 40⟩ ⟨1200, 800⟩ (by decide) (by decide), h5 ⟨5, 5⟩ ⟨100, 90⟩ (by decide)⟩

/-! ### Lemmas about `calculateConnectors` -/

theorem mem_connectorsOfSource {subSteps : List SubStep} {ss : SubStep} {c : ConnectorInfo}
    (hc : c ∈ connectorsOfSource subSteps ss) :
    ∃ target ∈ subSteps,
      c.sourceId = ss.id ∧ target.id = c.targetId ∧
      c.id = "conn-" ++ ss.id ++ "-" ++ c.targetId ∧
      c.fromPos = ⟨posXor0 ss.position + 200, posYor0 ss.position + 120 / 2⟩ ∧
      c.toPos = ⟨posXor0 target.position, posYor0 target.position + 120 / 2⟩ ∧
      c.targetId ∈ ss.nextSubStepIds.getD [] := by
  unfold connectorsOfSource at hc
  split at hc
  next hnext => cases hc
  next nextIds hnext =>
    split at hc
    · simp only [List.mem_filterMap] at hc
      obtain ⟨targetId, htid, hf⟩ := hc
      cases hfind : subSteps.find? (fun x => x.id = targetId) with
      | none => rw [hfind] at hf; cases hf
      | some target =>
        rw [hfind] at hf
        simp only [Option.some.injEq] at hf
        subst hf
        refine ⟨target, List.mem_of_find?_eq_some hfind, rfl, ?_, rfl, rfl, rfl, ?_⟩
        · have := List.find?_some hfind
          simpa using this
        · simpa [hnext] using htid
    · cases hc

theorem mem_calculateConnectors {subSteps : List SubStep} {c : ConnectorInfo}
    (hc : c ∈ calculateConnectors subSteps) :
    ∃ source ∈ subSteps, ∃ target ∈ subSteps,
      c.sourceId = source.id ∧ target.id = c.targetId ∧
      c.id = "conn-" ++ source.id ++ "-" ++ c.targetId ∧
      c.fromPos = ⟨posXor0 source.position + 200, posYor0 source.position + 120 / 2⟩ ∧
      c.toPos = ⟨posXor0 target.position, posYor0 target.position + 120 / 2⟩ ∧
      c.targetId ∈ source.nextSubStepIds.getD [] := by
  simp only [calculateConnectors, List.mem_flatMap] at hc
  obtain ⟨source, hsrc, hc⟩ := hc
  obtain ⟨target, htgt, h⟩ := mem_connectorsOfSource hc
  exact ⟨source, hsrc, target, htgt, h⟩

theorem connector_emitted_of_resolved {subSteps : List SubStep} {source : SubStep}
    (hsrc : source ∈ subSteps) {t : String} (ht : t ∈ source.nextSubStepIds.getD [])
    {target : SubStep} (hfind : subSteps.find? (fun x => x.id = t) = some target) :
    ∃ c ∈ calculateConnectors subSteps, c.sourceId = source.id ∧ c.targetId = t := by
  cases hnext : source.nextSubStepIds with
  | none => rw [hnext] at ht; cases ht
  | some nextIds =>
    rw [hnext] at ht
    have hlen : nextIds.length > 0 := List.length_pos.mpr (List.ne_nil_of_mem ht)
    refine ⟨{ id := "conn-" ++ source.id ++ "-" ++ t,
              fromPos := ⟨posXor0 source.position + 200, posYor0 source.position + 120 / 2⟩,
              toPos := ⟨posXor0 target.position, posYor0 target.position + 120 / 2⟩,
              sourceId := source.id, targetId := t }, ?_, rfl, rfl⟩
    simp only [calculateConnectors, List.mem_flatMap]
    refine ⟨source, hsrc, ?_⟩
    unfold connectorsOfSource
    split
    next heq => rw [heq] at hnext; cases hnext
    next nextIds2 heq =>
      rw [heq] at hnext
      injection hnext with hnext
      subst hnext
      rw [if_pos hlen]
      simp only [List.mem_filterMap]
      exact ⟨t, ht, by rw [hfind]⟩

/-- Claim C6: every connector emitted by `calculateConnectors` joins the
right-center of its source card to the left-center of its target card
(`from = source.position + (200, 60)`, `to = target.position + (0, 60)`),
and on `A` at `(0,0)`, `B` at `(300,0)` with `A.nextIds = ["b"]` the output
is exactly one connector with `from = (200, 60)`, `to = (300, 60)`. -/
theorem connector_geometry_spec :
    (∀ (subSteps : List SubStep), ∀ c ∈ calculateConnectors subSteps,
      ∃ source ∈ subSteps, ∃ target ∈ subSteps,
        c.sourceId = source.id ∧ target.id = c.targetId ∧
        c.fromPos = ⟨posXor0 source.position + 200, posYor0 source.position + 120 / 2⟩ ∧
        c.toPos = ⟨posXor0 target.position, posYor0 target.position + 120 / 2⟩) ∧
    (calculateConnectors [connDemoA, connDemoB] =
      [{ id := "conn-a-b", fromPos := ⟨200, 60⟩, toPos := ⟨300, 60⟩, sourceId := "a", targetId := "b" }]) := by
  refine ⟨fun subSteps c hc => ?_, by decide⟩
  obtain ⟨source, hsrc, target, htgt, h1, h2, _, h4, h5, _⟩ := mem_calculateConnectors hc
  exact ⟨source, hsrc, target, htgt, h1, h2, h4, h5⟩

/-- Closed witness for `connector_geometry_spec`: its membership hypothesis
is satisfiable on the spec's two-node example. -/
theorem connector_geometry_spec_witness :
    ∃ source ∈ [connDemoA, connDemoB], ∃ target ∈ [connDemoA, connDemoB],
      ("a" : String) = source.id ∧ target.id = "b" ∧
      (⟨200, 60⟩ : Pos) = ⟨posXor0 source.position + 200, posYor0 source.position + 120 / 2⟩ ∧
      (⟨300, 60⟩ : Pos) = ⟨posXor0 target.position, posYor0 target.position + 120 / 2⟩ :=
  connector_geometry_spec.1 [connDemoA, connDemoB]
    { id := "conn-a-b", fromPos := ⟨200, 60⟩, toPos := ⟨300, 60⟩, sourceId := "a", targetId := "b" }
    (by decide)

/-- Claim C7: `calculateConnectors` is a total function; every emitted
connector's target id resolves to a present node (entries whose target is
missing are silently dropped, as the concrete one-node example with a dangling
`"ghost"` edge shows), a connector is emitted for every edge whose target
does resolve, and every emitted connector's id is exactly
`"conn-" ++ sourceId ++ "-" ++ targetId`. -/
theorem connectors_total_spec :
    (∀ (subSteps : List SubStep), ∀ c ∈ calculateConnectors subSteps,
      (∃ tt ∈ subSteps, tt.id = c.targetId) ∧
      c.id = "conn-" ++ c.sourceId ++ "-" ++ c.targetId) ∧
    (∀ (subSteps : List SubStep), ∀ source ∈ subSteps, ∀ t ∈ source.nextSubStepIds.getD [],
      ∀ target, subSteps.find? (fun x => x.id = t) = some target →
        ∃ c ∈ calculateConnectors subSteps, c.sourceId = source.id ∧ c.targetId = t) ∧
    (calculateConnectors [{ id := "s", text := "S", nextSubStepIds := some ["ghost"] }] = []) := by
  refine ⟨fun subSteps c hc => ?_, fun subSteps source hsrc t ht target hfind =>
    connector_emitted_of_resolved hsrc ht hfind, by decide⟩
  obtain ⟨source, hsrc, target, htgt, h1, h2, h3, _, _, _⟩ := mem_calculateConnectors hc
  exact ⟨⟨target, htgt, h2⟩, by rw [h3, h1]⟩

/-- Closed witness for `connectors_total_spec`: its hypotheses are
satisfiable on the two-node example. -/
theorem connectors_total_spec_witness :
    (∃ tt ∈ [connDemoA, connDemoB], tt.id = "b") ∧
    ("conn-a-b" : String) = "conn-" ++ "a" ++ "-" ++ "b" :=
  connectors_total_spec.1 [connDemoA, connDemoB]
    { id := "conn-a-b", fromPos := ⟨200, 60⟩, toPos := ⟨300, 60⟩, sourceId := "a", targetId := "b" }
    (by decide)

/-- Claim C10: a node without a `position` is treated as located at `(0, 0)`:
its card is rendered at the canvas origin, and a connector leaving it starts
at `(0 + 200, 0 + 60)`; on the concrete pair (`"s"` without position pointing
at `"t"` at `(40, 50)`) the computation succeeds and yields that connector. -/
theorem missing_position_defaults_spec :
    (∀ ss : SubStep, ss.position = none → subStepCardLeftTop ss = ⟨0, 0⟩) ∧
    (∀ (subSteps : List SubStep) (ss : SubStep), ss.position = none →
      ∀ c ∈ connectorsOfSource subSteps ss, c.fromPos = ⟨0 + 200, 0 + 120 / 2⟩) ∧
    (calculateConnectors [noPosDemoS, noPosDemoT] =
      [{ id := "conn-s-t", fromPos := ⟨200, 60⟩, toPos := ⟨40, 110⟩, sourceId := "s", targetId := "t" }]) := by
  refine ⟨fun ss h => by simp [subStepCardLeftTop, h, posXor0, posYor0],
    fun subSteps ss h c hc => ?_, by decide⟩
  obtain ⟨target, _, _, _, _, h4, _, _⟩ := mem_connectorsOfSource hc
  rw [h4, h]
  simp [posXor0, posYor0]

/-- Closed witness for `missing_position_defaults_spec`: its hypotheses are
satisfiable on the position-less node `"s"`. -/
theorem missing_position_defaults_spec_witness :
    subStepCardLeftTop noPosDemoS = ⟨0, 0⟩ ∧
    (⟨200, 60⟩ : Pos) = ⟨0 + 200, 0 + 120 / 2⟩ :=
  ⟨missing_position_defaults_spec.1 noPosDemoS (by decide),
   missing_position_defaults_spec.2.1 [noPosDemoS, noPosDemoT] noPosDemoS (by decide)
     { id := "conn-s-t", fromPos := ⟨200, 60⟩, toPos := ⟨40, 110⟩, sourceId := "s", targetId := "t" }
     (by decide)⟩

/-! ### Claim C1: delete cascades -/

/-- Claim C1: for every node set and every id of a node present in it,
`handleRemoveSubStep` yields a set in which (1) no node has that id, (2) no
remaining node's `nextSubStepIds` contains that id, (3) every remaining node
is one of the input nodes with only its `nextSubStepIds` rewritten (by
filtering that id out), and (4) every input node with a different id is still
present. -/
theorem removeNode_spec (nodes : List SubStep) (i : String)
    (_hpresent : ∃ ss ∈ nodes, ss.id = i) :
    (∀ ss ∈ handleRemoveSubStep nodes i, ss.id ≠ i) ∧
    (∀ ss ∈ handleRemoveSubStep nodes i, ∀ t ∈ ss.nextSubStepIds.getD [], t ≠ i) ∧
    (∀ ss ∈ handleRemoveSubStep nodes i, ∃ ss0 ∈ nodes,
      ss.id = ss0.id ∧ ss.text = ss0.text ∧ ss.notes = ss0.notes ∧
      ss.position = ss0.position ∧ ss.actionItems = ss0.actionItems ∧
      ss.nextSubStepIds = ss0.nextSubStepIds.map (List.filter (fun x => x ≠ i))) ∧
    (∀ ss0 ∈ nodes, ss0.id ≠ i → ∃ ss ∈ handleRemoveSubStep nodes i, ss.id = ss0.id) := by
  refine ⟨?_, ?_, ?_, ?_⟩
  · intro ss hss
    simp only [handleRemoveSubStep, List.mem_map, List.mem_filter, decide_eq_true_eq] at hss
    obtain ⟨ss0, ⟨_, hid⟩, rfl⟩ := hss
    simpa using hid
  · intro ss hss t ht
    simp only [handleRemoveSubStep, List.mem_map, List.mem_filter, decide_eq_true_eq] at hss
    obtain ⟨ss0, ⟨_, _⟩, rfl⟩ := hss
    cases hnext : ss0.nextSubStepIds with
    | none => rw [hnext] at ht; cases ht
    | some l =>
      rw [hnext] at ht
      simp only [Option.map_some', Option.getD_some, List.mem_filter, decide_eq_true_eq] at ht
      exact ht.2
  · intro ss hss
    simp only [handleRemoveSubStep, List.mem_map, List.mem_filter, decide_eq_true_eq] at hss
    obtain ⟨ss0, ⟨hmem, _⟩, rfl⟩ := hss
    exact ⟨ss0, hmem, rfl, rfl, rfl, rfl, rfl, rfl⟩
  · intro ss0 hmem hid
    refine ⟨{ ss0 with nextSubStepIds := ss0.nextSubStepIds.map (List.filter (fun x => x ≠ i)) }, ?_, rfl⟩
    simp only [handleRemoveSubStep, List.mem_map]
    refine ⟨ss0, ?_, rfl⟩
    simp only [List.mem_filter, decide_eq_true_eq]
    exact ⟨hmem, hid⟩

/-- Closed witness for `removeNode_spec`, on the spec's `A→B`, `B→C`
example: removing `B` leaves `A` and `C` present, `A.nextIds` no longer
contains `"b"`, and no remaining node references `"c"`. -/
theorem removeNode_spec_witness :
    (∃ ss ∈ [cascadeA, cascadeB, cascadeC], ss.id = "b") ∧
    (∀ ss ∈ handleRemoveSubStep [cascadeA, cascadeB, cascadeC] "b", ss.id ≠ "b") ∧
    (∃ ss ∈ handleRemoveSubStep [cascadeA, cascadeB, cascadeC] "b", ss.id = "a") ∧
    (∃ ss ∈ handleRemoveSubStep [cascadeA, cascadeB, cascadeC] "b", ss.id = "c") ∧
    (∀ ss ∈ handleRemoveSubStep [cascadeA, cascadeB, cascadeC] "b", "b" ∉ ss.nextSubStepIds.getD []) ∧
    (∀ ss ∈ handleRemoveSubStep [cascadeA, cascadeB, cascadeC] "b", "c" ∉ ss.nextSubStepIds.getD []) := by
  have h := removeNode_spec [cascadeA, cascadeB, cascadeC] "b" (by decide)
  exact ⟨by decide, h.1, by decide, by decide, by decide, by decide⟩

/-! ### Claim C4: connect -/

/-- Claim C4, counterexample: `handleEndConnection` is **not** a no-op when
the target id is absent from the node set — connecting the only node `"a"`
to the absent id `"b"` changes the set (it records a dangling `"b"` edge). -/
theorem connect_absent_target_counterexample :
    (∀ ss ∈ [nodeOnlyA], ss.id ≠ "b") ∧
    handleEndConnection [nodeOnlyA] "a" "b" ≠ [nodeOnlyA] := by
  decide

/-- Claim C4, amended: `handleEndConnection nodes s t` leaves the node set
unchanged when `s = t` or when `s` is absent from the set; it does **not**
check that `t` is present — whenever a node with id `s` exists and `s ≠ t`,
`t` is added to that node's `nextSubStepIds` with set semantics (the
resulting edge list holds exactly the old entries plus `t`), and the
duplicate add is idempotent (connecting twice equals connecting once). -/
theorem connect_spec_amended :
    (∀ (nodes : List SubStep) (X : String), handleEndConnection nodes X X = nodes) ∧
    (∀ (nodes : List SubStep) (s t : String), (∀ ss ∈ nodes, ss.id ≠ s) →
      handleEndConnection nodes s t = nodes) ∧
    (∀ (nodes : List SubStep) (s t : String),
      handleEndConnection (handleEndConnection nodes s t) s t = handleEndConnection nodes s t) ∧
    (∀ (nodes : List SubStep) (s t : String), s ≠ t → ∀ ss ∈ nodes, ss.id = s →
      ∃ ss2 ∈ handleEndConnection nodes s t, ss2.id = ss.id ∧
        ∀ x : String, x ∈ ss2.nextSubStepIds.getD [] ↔ x ∈ ss.nextSubStepIds.getD [] ∨ x = t) := by
  refine ⟨?_, ?_, ?_, ?_⟩
  · intro nodes X
    simp [handleEndConnection]
  · intro nodes s t h
    unfold handleEndConnection
    by_cases hst : s = t
    · rw [if_pos hst]
    · rw [if_neg hst]
      conv_rhs => rw [← List.map_id nodes]
      apply List.map_congr_left
      intro ss hss
      rw [if_neg (h ss hss)]
      rfl
  · intro nodes s t
    by_cases hst : s = t
    · simp [handleEndConnection, if_pos hst]
    · simp only [handleEndConnection, if_neg hst]
      rw [List.map_map]
      apply List.map_congr_left
      intro ss _
      simp only [Function.comp_apply]
      by_cases hid : ss.id = s
      · rw [if_pos hid]
        rw [if_pos (show ({ ss with nextSubStepIds := some (jsSetDedup ((ss.nextSubStepIds.getD []) ++ [t])) } : SubStep).id = s from hid)]
        show ({ ss with nextSubStepIds := some (jsSetDedup ((jsSetDedup ((ss.nextSubStepIds.getD []) ++ [t])) ++ [t])) } : SubStep) = _
        have ht : t ∈ jsSetDedup ((ss.nextSubStepIds.getD []) ++ [t]) :=
          mem_jsSetDedup.mpr (by simp)
        rw [jsSetDedup_append_mem ht, jsSetDedup_idem]
      · rw [if_neg hid, if_neg hid]
  · intro nodes s t hst ss hss hid
    refine ⟨{ ss with nextSubStepIds := some (jsSetDedup ((ss.nextSubStepIds.getD []) ++ [t])) }, ?_, rfl, ?_⟩
    · unfold handleEndConnection
      rw [if_neg hst]
      simp only [List.mem_map]
      exact ⟨ss, hss, by rw [if_pos hid]⟩
    · intro x
      simp only [Option.getD_some, mem_jsSetDedup, List.mem_append, List.mem_singleton]

/-- Closed witness for `connect_spec_amended`: its hypotheses are
satisfiable — `"x"` is absent from `[nodeOnlyA]`, and `"a"` is a present
source distinct from target `"b"`. -/
theorem connect_spec_amended_witness :
    handleEndConnection [nodeOnlyA] "x" "b" = [nodeOnlyA] ∧
    (∃ ss2 ∈ handleEndConnection [nodeOnlyA] "a" "b", ss2.id = nodeOnlyA.id ∧
      ∀ x : String, x ∈ ss2.nextSubStepIds.getD [] ↔ x ∈ nodeOnlyA.nextSubStepIds.getD [] ∨ x = "b") := by
  obtain ⟨-, h2, -, h4⟩ := connect_spec_amended
  exact ⟨h2 [nodeOnlyA] "x" "b" (by decide),
         h4 [nodeOnlyA] "a" "b" (by decide) nodeOnlyA (by decide) (by decide)⟩

/-! ### Lemmas about `pushNewSubSteps`, `modifyFirst` and `addNewActionItems` -/

theorem pushNewSubSteps_eq_append (g : Nat → String) :
    ∀ (ps : List Proposal) (acc : List SubStep) (idx : Nat),
      ∃ tail : List SubStep, pushNewSubSteps g acc idx ps = acc ++ tail ∧
        ∀ n ∈ tail, n.nextSubStepIds = none := by
  intro ps
  induction ps with
  | nil =>
    intro acc idx
    exact ⟨[], by simp [pushNewSubSteps], by simp⟩
  | cons p rest ih =>
    intro acc idx
    obtain ⟨tail, heq, hnone⟩ := ih (acc ++ [mkProposalSubStep g acc idx p]) (idx + 1)
    refine ⟨mkProposalSubStep g acc idx p :: tail, ?_, ?_⟩
    · rw [pushNewSubSteps, heq, List.append_assoc]
      rfl
    · intro n hn
      rcases List.mem_cons.mp hn with rfl | hn
      · rfl
      · exact hnone n hn

theorem pushNewSubSteps_position (g : Nat → String) :
    ∀ (ps : List Proposal) (acc : List SubStep) (idx i : Nat), i < ps.length →
      ((pushNewSubSteps g acc idx ps)[acc.length + i]?).map SubStep.position =
        some (some ⟨50 + (((acc.length : Int) + (idx : Int)) + 2 * (i : Int)) * 220, 50⟩) := by
  intro ps
  induction ps with
  | nil =>
    intro acc idx i h
    simp at h
  | cons p rest ih =>
    intro acc idx i hi
    rw [pushNewSubSteps]
    cases i with
    | zero =>
      obtain ⟨tail, heq, -⟩ :=
        pushNewSubSteps_eq_append g rest (acc ++ [mkProposalSubStep g acc idx p]) (idx + 1)
      rw [heq, Nat.add_zero, List.append_assoc]
      rw [List.getElem?_append_right (Nat.le_refl acc.length)]
      simp only [Nat.sub_self, List.cons_append, List.getElem?_cons_zero, Option.map_some']
      have harith : (((acc.length : Int) + (idx : Int)) + 2 * ((0 : Nat) : Int)) = (acc.length : Int) + (idx : Int) := by
        push_cast
        ring
      rw [harith]
      rfl
    | succ i =>
      have hi2 : i < rest.length := by simpa using hi
      have hidx : acc.length + (i + 1) = (acc ++ [mkProposalSubStep g acc idx p]).length + i := by
        simp only [List.length_append, List.length_singleton]
        omega
      rw [hidx, ih (acc ++ [mkProposalSubStep g acc idx p]) (idx + 1) i hi2]
      have harith : ((((acc ++ [mkProposalSubStep g acc idx p]).length : Int) + ((idx + 1 : Nat) : Int)) + 2 * (i : Int)) =
          (((acc.length : Int) + (idx : Int)) + 2 * ((i + 1 : Nat) : Int)) := by
        simp only [List.length_append, List.length_singleton]
        push_cast
        ring
      rw [harith]

theorem modifyFirst_eq_of_none (p : SubStep → Bool) (f : SubStep → SubStep) :
    ∀ l : List SubStep, (∀ ss ∈ l, ¬ p ss) → modifyFirst p f l = l := by
  intro l
  induction l with
  | nil => intro _; rfl
  | cons ss rest ih =>
    intro h
    rw [modifyFirst, if_neg (by simpa using h ss (List.mem_cons_self ss rest))]
    rw [ih (fun x hx => h x (List.mem_cons_of_mem _ hx))]

theorem mem_modifyFirst {p : SubStep → Bool} {f : SubStep → SubStep}
    (hf : ∀ ss, (f ss).id = ss.id ∧ (f ss).nextSubStepIds = ss.nextSubStepIds) :
    ∀ l : List SubStep, ∀ ss ∈ modifyFirst p f l,
      ∃ ss0 ∈ l, ss.id = ss0.id ∧ ss.nextSubStepIds = ss0.nextSubStepIds := by
  intro l
  induction l with
  | nil => intro ss h; cases h
  | cons x rest ih =>
    intro ss h
    rw [modifyFirst] at h
    by_cases hp : p x
    · rw [if_pos hp] at h
      rcases List.mem_cons.mp h with rfl | h
      · exact ⟨x, List.mem_cons_self x rest, (hf x).1, (hf x).2⟩
      · exact ⟨ss, List.mem_cons_of_mem _ h, rfl, rfl⟩
    · rw [if_neg hp] at h
      rcases List.mem_cons.mp h with rfl | h
      · exact ⟨ss, List.mem_cons_self ss rest, rfl, rfl⟩
      · obtain ⟨ss0, h0, heq⟩ := ih ss h
        exact ⟨ss0, List.mem_cons_of_mem _ h0, heq⟩

theorem modifyFirst_mem {p : SubStep → Bool} {f : SubStep → SubStep}
    (hf : ∀ ss, (f ss).id = ss.id) :
    ∀ l : List SubStep, ∀ ss0 ∈ l, ∃ ss ∈ modifyFirst p f l, ss.id = ss0.id := by
  intro l
  induction l with
  | nil => intro ss0 h; cases h
  | cons x rest ih =>
    intro ss0 h
    rw [modifyFirst]
    by_cases hp : p x
    · rw [if_pos hp]
      rcases List.mem_cons.mp h with rfl | h
      · exact ⟨f ss0, List.mem_cons_self _ _, hf ss0⟩
      · exact ⟨ss0, List.mem_cons_of_mem _ h, rfl⟩
    · rw [if_neg hp]
      rcases List.mem_cons.mp h with rfl | h
      · exact ⟨ss0, List.mem_cons_self _ _, rfl⟩
      · obtain ⟨ss, hss, heq⟩ := ih ss0 h
        exact ⟨ss, List.mem_cons_of_mem _ hss, heq⟩

/-! ### Claim C8: merging proposals -/

/-- Claim C8, counterexample: on an empty node set, two proposals are
appended at `x = 50` and `x = 490` (the live array length is re-read after
each push, so the `index`-th node lands at `x = 50 + 2·index·220`); the
second node is neither at `x = 300` (the §4.1 grid rule
`50 + (1 mod 3)·250`) nor at `x = 270` (the `50 + len·220` add-node rule),
so appended nodes are not auto-positioned per the spec's placement rule. -/
theorem merge_placement_counterexample :
    ((handleConfirmProposals [] [⟨"T1", "D1"⟩, ⟨"T2", "D2"⟩] [] (fun _ => "s") (fun _ => "t")).map
        SubStep.position) = [some ⟨50, 50⟩, some ⟨490, 50⟩] ∧
    ((490 : Int) ≠ 300 ∧ (490 : Int) ≠ 270) := by
  decide

/-- Claim C8, amended: merging one proposal `{title:"T", description:"D"}`
into an empty node set yields exactly one node with `text = "T"`,
`notes = "D"`, an empty action-item list and position `(50, 50)`; a
new-child spec whose `targetSubStepId` does not resolve in the current
(post-append) node set is ignored; and the `i`-th appended node is placed at
`y = 50`, `x = 50 + (existingLen + 2·i) · 220` — not per the §4.1 grid
rule. -/
theorem merge_proposals_amended :
    (∀ g1 g2 : Nat → String, handleConfirmProposals [] [⟨"T", "D"⟩] [] g1 g2 =
      [{ id := g1 0, text := "T", notes := some "D", position := some ⟨50, 50⟩,
         actionItems := some [] }]) ∧
    (∀ (g2 : Nat → String) (acc : List SubStep) (j : Nat) (item : NewActionItemSpec)
        (rest : List NewActionItemSpec),
      (∀ ss ∈ acc, ss.id ≠ item.targetSubStepId) →
        addNewActionItems g2 acc j (item :: rest) = addNewActionItems g2 acc (j + 1) rest) ∧
    (∀ (g1 g2 : Nat → String) (nodes : List SubStep) (ps : List Proposal) (i : Nat),
      i < ps.length →
        ((handleConfirmProposals nodes ps [] g1 g2)[nodes.length + i]?).map SubStep.position =
          some (some ⟨50 + ((nodes.length : Int) + 2 * (i : Int)) * 220, 50⟩)) := by
  refine ⟨?_, ?_, ?_⟩
  · intro g1 g2
    show addNewActionItems g2 (pushNewSubSteps g1 [] 0 [⟨"T", "D"⟩]) 0 [] = _
    rw [pushNewSubSteps, pushNewSubSteps, addNewActionItems]
    simp [mkProposalSubStep]
  · intro g2 acc j item rest h
    rw [addNewActionItems]
    rw [modifyFirst_eq_of_none _ _ acc (fun ss hss => by simpa using h ss hss)]
  · intro g1 g2 nodes ps i hi
    show ((addNewActionItems g2 (pushNewSubSteps g1 nodes 0 ps) 0 [])[nodes.length + i]?).map SubStep.position = _
    rw [addNewActionItems]
    have h := pushNewSubSteps_position g1 ps nodes 0 i hi
    have harith : (((nodes.length : Int) + ((0 : Nat) : Int)) + 2 * (i : Int)) =
        ((nodes.length : Int) + 2 * (i : Int)) := by
      push_cast
      ring
    rw [harith] at h
    exact h

/-- Closed witness for `merge_proposals_amended`: its hypotheses are
satisfiable — `"zz"` resolves to no node, and index 0 is below the length of
a one-proposal list. -/
theorem merge_proposals_amended_witness :
    addNewActionItems (fun _ => "t") [nodeOnlyA] 0 [⟨"zz", "X"⟩] =
      addNewActionItems (fun _ => "t") [nodeOnlyA] 1 [] ∧
    ((handleConfirmProposals [] [⟨"T", "D"⟩] [] (fun _ => "s") (fun _ => "t"))[0]?).map
        SubStep.position = some (some ⟨50, 50⟩) := by
  obtain ⟨-, h2, h3⟩ := merge_proposals_amended
  refine ⟨h2 (fun _ => "t") [nodeOnlyA] 0 ⟨"zz", "X"⟩ [] (by decide), ?_⟩
  have h := h3 (fun _ => "s") (fun _ => "t") [] [⟨"T", "D"⟩] 0 (by decide)
  simpa using h

/-! ### Claim C2: referential integrity

`edgeSim l1 l2` is the transfer condition under which `refIntegrity l1`
implies `refIntegrity l2`: every edge of `l2` already occurs as an edge of
`l1`, and every id of `l1` is still carried by some node of `l2`. -/

def edgeSim (l1 l2 : List SubStep) : Prop :=
  (∀ ss ∈ l2, ∀ t ∈ ss.nextSubStepIds.getD [], ∃ ss0 ∈ l1, t ∈ ss0.nextSubStepIds.getD []) ∧
  (∀ ss0 ∈ l1, ∃ ss ∈ l2, ss.id = ss0.id)

theorem edgeSim_refl (l : List SubStep) : edgeSim l l :=
  ⟨fun ss h _t ht => ⟨ss, h, ht⟩, fun ss h => ⟨ss, h, rfl⟩⟩

theorem edgeSim_trans {l1 l2 l3 : List SubStep} (h12 : edgeSim l1 l2) (h23 : edgeSim l2 l3) :
    edgeSim l1 l3 := by
  constructor
  · intro ss hss t ht
    obtain ⟨ss2, h2, ht2⟩ := h23.1 ss hss t ht
    exact h12.1 ss2 h2 t ht2
  · intro ss0 h0
    obtain ⟨ss2, h2, hid2⟩ := h12.2 ss0 h0
    obtain ⟨ss3, h3, hid3⟩ := h23.2 ss2 h2
    exact ⟨ss3, h3, hid3.trans hid2⟩

theorem refIntegrity_of_edgeSim {l1 l2 : List SubStep} (h : edgeSim l1 l2)
    (hi : refIntegrity l1) : refIntegrity l2 := by
  intro ss hss t ht
  obtain ⟨ss0, h0, ht0⟩ := h.1 ss hss t ht
  obtain ⟨tt, htt, hid⟩ := hi ss0 h0 t ht0
  obtain ⟨tt2, htt2, hid2⟩ := h.2 tt htt
  exact ⟨tt2, htt2, hid2.trans hid⟩

theorem edgeSim_map {f : SubStep → SubStep}
    (hf : ∀ ss, (f ss).id = ss.id ∧
      ∀ t ∈ (f ss).nextSubStepIds.getD [], t ∈ ss.nextSubStepIds.getD [])
    (l : List SubStep) : edgeSim l (l.map f) := by
  constructor
  · intro ss hss t ht
    obtain ⟨ss0, h0, rfl⟩ := List.mem_map.mp hss
    exact ⟨ss0, h0, (hf ss0).2 t ht⟩
  · intro ss0 h0
    exact ⟨f ss0, List.mem_map_of_mem f h0, (hf ss0).1⟩

theorem edgeSim_append_right (l news : List SubStep)
    (h : ∀ n ∈ news, n.nextSubStepIds.getD [] = []) : edgeSim l (l ++ news) := by
  constructor
  · intro ss hss t ht
    rcases List.mem_append.mp hss with h1 | h1
    · exact ⟨ss, h1, ht⟩
    · rw [h ss h1] at ht
      cases ht
  · intro ss0 h0
    exact ⟨ss0, List.mem_append_left _ h0, rfl⟩

theorem edgeSim_autoLayoutFrom (m : Int) (idx : Nat) (l : List SubStep) :
    edgeSim l (autoLayoutFrom m idx l) := by
  induction l generalizing idx with
  | nil => exact edgeSim_refl []
  | cons x rest ih =>
    rw [autoLayoutFrom]
    obtain ⟨ih1, ih2⟩ := ih (idx + 1)
    constructor
    · intro ss hss t ht
      rcases List.mem_cons.mp hss with rfl | hss
      · exact ⟨x, List.mem_cons_self _ _, ht⟩
      · obtain ⟨ss0, h0, ht0⟩ := ih1 ss hss t ht
        exact ⟨ss0, List.mem_cons_of_mem _ h0, ht0⟩
    · intro ss0 h0
      rcases List.mem_cons.mp h0 with rfl | h0
      · exact ⟨_, List.mem_cons_self _ _, rfl⟩
      · obtain ⟨ss, hss, heq⟩ := ih2 ss0 h0
        exact ⟨ss, List.mem_cons_of_mem _ hss, heq⟩

theorem edgeSim_modifyFirst {p : SubStep → Bool} {f : SubStep → SubStep}
    (hf : ∀ ss, (f ss).id = ss.id ∧ (f ss).nextSubStepIds = ss.nextSubStepIds)
    (l : List SubStep) : edgeSim l (modifyFirst p f l) := by
  constructor
  · intro ss hss t ht
    obtain ⟨ss0, h0, _, hnext⟩ := mem_modifyFirst hf l ss hss
    rw [hnext] at ht
    exact ⟨ss0, h0, ht⟩
  · exact modifyFirst_mem (fun ss => (hf ss).1) l

theorem edgeSim_addNewActionItems (g : Nat → String) :
    ∀ (specs : List NewActionItemSpec) (acc : List SubStep) (j : Nat),
      edgeSim acc (addNewActionItems g acc j specs) := by
  intro specs
  induction specs with
  | nil => intro acc j; exact edgeSim_refl acc
  | cons item rest ih =>
    intro acc j
    rw [addNewActionItems]
    have h1 : edgeSim acc (modifyFirst (fun ss => ss.id = item.targetSubStepId)
        (fun ss => { ss with actionItems := some ((ss.actionItems.getD []) ++ [⟨g j, item.title, false⟩]) }) acc) := by
      refine edgeSim_modifyFirst ?_ acc
      intro ss
      exact ⟨rfl, rfl⟩
    exact edgeSim_trans h1 (ih _ (j + 1))

theorem refIntegrity_remove {nodes : List SubStep} (hi : refIntegrity nodes) (i : String) :
    refIntegrity (handleRemoveSubStep nodes i) := by
  intro ss hss t ht
  simp only [handleRemoveSubStep, List.mem_map, List.mem_filter, decide_eq_true_eq] at hss
  obtain ⟨ss0, ⟨hmem, _⟩, rfl⟩ := hss
  cases hnext : ss0.nextSubStepIds with
  | none => rw [hnext] at ht; cases ht
  | some l =>
    rw [hnext] at ht
    simp only [Option.map_some', Option.getD_some, List.mem_filter, decide_eq_true_eq] at ht
    obtain ⟨htl, hti⟩ := ht
    obtain ⟨tt, htt, htid⟩ := hi ss0 hmem t (by rw [hnext]; exact htl)
    refine ⟨{ tt with nextSubStepIds := tt.nextSubStepIds.map (List.filter (fun x => x ≠ i)) }, ?_, htid⟩
    simp only [handleRemoveSubStep, List.mem_map]
    refine ⟨tt, ?_, rfl⟩
    simp only [List.mem_filter, decide_eq_true_eq]
    exact ⟨htt, by rw [htid]; exact hti⟩

theorem refIntegrity_connect {nodes : List SubStep} (hi : refIntegrity nodes) {s t : String}
    (h : s = t ∨ ∃ tt ∈ nodes, tt.id = t) :
    refIntegrity (handleEndConnection nodes s t) := by
  unfold handleEndConnection
  by_cases hst : s = t
  · rw [if_pos hst]
    exact hi
  · rw [if_neg hst]
    have hpresent : ∃ tt ∈ nodes, tt.id = t := by
      rcases h with h | h
      · exact absurd h hst
      · exact h
    intro ss hss x hx
    have himg : ∀ tt ∈ nodes, tt.id = x →
        ∃ tt2 ∈ nodes.map (fun ss => if ss.id = s then { ss with nextSubStepIds := some (jsSetDedup ((ss.nextSubStepIds.getD []) ++ [t])) } else ss), tt2.id = x := by
      intro tt htt hid
      refine ⟨_, List.mem_map_of_mem _ htt, ?_⟩
      by_cases hc : tt.id = s
      · rw [if_pos hc]
        exact hid
      · rw [if_neg hc]
        exact hid
    obtain ⟨ss0, h0, rfl⟩ := List.mem_map.mp hss
    by_cases hc : ss0.id = s
    · rw [if_pos hc] at hx
      simp only [Option.getD_some, mem_jsSetDedup, List.mem_append, List.mem_singleton] at hx
      rcases hx with hx | rfl
      · obtain ⟨tt, htt, hid⟩ := hi ss0 h0 x hx
        exact himg tt htt hid
      · obtain ⟨tt, htt, hid⟩ := hpresent
        exact himg tt htt hid
    · rw [if_neg hc] at hx
      obtain ⟨tt, htt, hid⟩ := hi ss0 h0 x hx
      exact himg tt htt hid

/-- Claim C2, counterexample: referential integrity is **not** preserved by
every canvas operation for all argument values — starting from the intact
one-node set `["a"]`, connecting `"a"` to the absent id `"b"` produces a
dangling edge. -/
theorem integrity_connect_counterexample :
    refIntegrity [nodeOnlyA] ∧ ¬ refIntegrity (handleEndConnection [nodeOnlyA] "a" "b") := by
  decide

/-- Claim C2, amended: starting from a node set satisfying referential
integrity, the invariant is preserved by add, remove, disconnect,
auto-layout (both variants), move and merge-proposals for **all** argument
values (including absent ids), and by connect whenever the target id is the
source itself or resolves to a present node (the code performs no presence
check on the target, so connecting to an absent id is the one violation). -/
theorem integrity_invariant_amended :
    (∀ (nodes : List SubStep) (newId : String), refIntegrity nodes →
      refIntegrity (handleAddSubStep nodes newId)) ∧
    (∀ (nodes : List SubStep) (i : String), refIntegrity nodes →
      refIntegrity (handleRemoveSubStep nodes i)) ∧
    (∀ (nodes : List SubStep) (s t : String), refIntegrity nodes →
      (s = t ∨ ∃ tt ∈ nodes, tt.id = t) → refIntegrity (handleEndConnection nodes s t)) ∧
    (∀ (nodes : List SubStep) (s t : String), refIntegrity nodes →
      refIntegrity (handleDeleteConnection nodes s t)) ∧
    (∀ nodes : List SubStep, refIntegrity nodes → refIntegrity (handleAutoLayout nodes)) ∧
    (∀ nodes : List SubStep, refIntegrity nodes → refIntegrity (handleAutoLayoutSubSteps nodes)) ∧
    (∀ (nodes : List SubStep) (d : String) (p : Pos) (cs : CanvasSize), refIntegrity nodes →
      refIntegrity (handleSubStepDrop nodes d p cs)) ∧
    (∀ (nodes : List SubStep) (ps : List Proposal) (specs : List NewActionItemSpec)
        (g1 g2 : Nat → String), refIntegrity nodes →
      refIntegrity (handleConfirmProposals nodes ps specs g1 g2)) := by
  refine ⟨?_, ?_, ?_, ?_, ?_, ?_, ?_, ?_⟩
  · intro nodes newId hi
    refine refIntegrity_of_edgeSim (edgeSim_append_right nodes _ ?_) hi
    intro n hn
    rw [List.mem_singleton] at hn
    subst hn
    rfl
  · intro nodes i hi
    exact refIntegrity_remove hi i
  · intro nodes s t hi h
    exact refIntegrity_connect hi h
  · intro nodes s t hi
    refine refIntegrity_of_edgeSim (edgeSim_map ?_ nodes) hi
    intro ss
    by_cases hc : ss.id = s
    · rw [if_pos hc]
      refine ⟨rfl, ?_⟩
      intro x hx
      simp only [Option.getD_some, List.mem_filter, decide_eq_true_eq] at hx
      exact hx.1
    · rw [if_neg hc]
      exact ⟨rfl, fun x hx => hx⟩
  · intro nodes hi
    exact refIntegrity_of_edgeSim (edgeSim_autoLayoutFrom 50 0 nodes) hi
  · intro nodes hi
    exact refIntegrity_of_edgeSim (edgeSim_autoLayoutFrom 20 0 nodes) hi
  · intro nodes d p cs hi
    refine refIntegrity_of_edgeSim (edgeSim_map ?_ nodes) hi
    intro ss
    by_cases hc : ss.id = d
    · rw [if_pos hc]
      exact ⟨rfl, fun x hx => hx⟩
    · rw [if_neg hc]
      exact ⟨rfl, fun x hx => hx⟩
  · intro nodes ps specs g1 g2 hi
    obtain ⟨tail, heq, hnone⟩ := pushNewSubSteps_eq_append g1 ps nodes 0
    refine refIntegrity_of_edgeSim (edgeSim_trans ?_ (edgeSim_addNewActionItems g2 specs _ 0)) hi
    rw [heq]
    exact edgeSim_append_right nodes tail (fun n hn => by rw [hnone n hn]; rfl)

/-- Closed witness for `integrity_invariant_amended`: preservation
instantiated on the intact sets `[A→B, B→C, C]` (remove) and `[A, B]`
(connect with a present target). -/
theorem integrity_invariant_amended_witness :
    refIntegrity (handleRemoveSubStep [cascadeA, cascadeB, cascadeC] "b") ∧
    refIntegrity (handleEndConnection [connDemoA, connDemoB] "b" "a") := by
  obtain ⟨-, h2, h3, -⟩ := integrity_invariant_amended
  refine ⟨h2 [cascadeA, cascadeB, cascadeC] "b" (by decide), ?_⟩
  exact h3 [connDemoA, connDemoB] "b" "a" (by decide) (Or.inr ⟨connDemoA, by decide, by decide⟩)

end AiProjectPlanner
